import Mathlib

/-!
Shallow embedding of the libvest library (src/vec.c and src/str.c) and proofs
about it.  size_t arithmetic is modelled as Nat with explicit reduction modulo
2^64 at every operation where the C code computes in size_t and can wrap.
A vector's storage is modelled item-wise: `data` holds one entry per item
slot, and its length is the allocated number of slots (the capacity), exactly
mirroring the single `capacity * unit_size`-byte allocation of vec.c.
Allocation is assumed to succeed (the claims all speak about behaviour apart
from allocation failure); consequently functions that can fail only through
malloc/realloc are total here, while functions with genuine error returns
(str_insert, str_find, str_replace) return an Option.
-/

namespace LibVest

/-- The size_t modulus: values wrap modulo 2^64. -/
def W : Nat := 2 ^ 64

/-- size_t addition (wraps modulo 2^64). -/
def add64 (a b : Nat) : Nat := (a + b) % W

/-- size_t subtraction (wraps modulo 2^64); faithful for a, b < W. -/
def sub64 (a b : Nat) : Nat := (a + (W - b % W)) % W

/-- size_t multiplication (wraps modulo 2^64). -/
def mul64 (a b : Nat) : Nat := (a * b) % W

/-- Overwrite the slots of `l` starting at position `pos` with the items of
`src`; writes that fall outside `l` are dropped (in C such writes are heap
overflows, i.e. undefined behaviour). -/
def list_write : List Nat → Nat → List Nat → List Nat
  | [], _, _ => []
  | _ :: l, 0, b :: s => b :: list_write l 0 s
  | a :: l, 0, [] => a :: l
  | a :: l, n + 1, s => a :: list_write l n s

/-- The vec_obj_t header of vec.c together with its trailing storage.
`data` has one entry per allocated item slot. -/
structure Vec where
  unit_size : Nat
  capacity : Nat
  count : Nat
  data : List Nat
deriving Repr, DecidableEq

/-- VEC_INIT_CAPACITY from vec.h. -/
def VEC_INIT_CAPACITY : Nat := 128

/-- vec_new_len: malloc of VEC_INIT_CAPACITY slots, count set to the request,
capacity set to VEC_INIT_CAPACITY, all allocated bytes memset to zero.
Note the C code sizes the allocation from VEC_INIT_CAPACITY only, never from
`count`. -/
def vec_new_len (unit count : Nat) : Vec :=
  { unit_size := unit
    capacity := VEC_INIT_CAPACITY
    count := count
    data := List.replicate VEC_INIT_CAPACITY 0 }

/-- vec_new. -/
def vec_new (unit : Nat) : Vec :=
  vec_new_len unit 0

/-- vec_resize: if the requested count reaches the capacity, the capacity is
doubled once, the allocation grown, and the slots from the old count up to the
new capacity are memset to zero; otherwise only `count` changes and the stored
data is untouched.  (When the old count exceeds the new capacity the C memset
length wraps around, which is undefined behaviour; the embedding then zeroes
nothing.) -/
def vec_resize (v : Vec) (count : Nat) : Vec :=
  if count ≥ v.capacity then
    ⟨v.unit_size, v.capacity * 2, count,
      v.data.take v.count ++ List.replicate (v.capacity * 2 - v.count) 0⟩
  else
    ⟨v.unit_size, v.capacity, count, v.data⟩

/-- vec_extend: resize to vec_count + count (size_t addition). -/
def vec_extend (v : Vec) (count : Nat) : Vec :=
  vec_resize v (add64 v.count count)

/-- The item index that vec_ptr_at's pointer refers to: position 0 returns the
base handle, positions at or past `count` are clamped to `count - 1` computed
in size_t (so an empty vector wraps around to 2^64 - 1). -/
def vec_idx_at (v : Vec) (pos : Nat) : Nat :=
  if pos = 0 then 0
  else if pos ≥ v.count then sub64 v.count 1
  else pos

/-- vec_ptr_at as the byte offset (from the data handle) of the returned
pointer, exactly as computed by the C pointer arithmetic. -/
def vec_ptr_at (v : Vec) (pos : Nat) : Nat :=
  if pos = 0 then 0
  else if pos ≥ v.count then mul64 (sub64 v.count 1) v.unit_size
  else mul64 pos v.unit_size

/-- vec_copy: no-op for len = 0 or pos ≥ count; otherwise len is truncated to
count - pos, the source items are staged into a temporary buffer and then
written at position pos (pos < count, so vec_ptr_at yields exactly slot pos). -/
def vec_copy (v : Vec) (pos : Nat) (items : List Nat) (len : Nat) : Vec :=
  if len = 0 then v
  else if pos ≥ v.count then v
  else
    let tocopy := v.count - pos
    let len' := if len > tocopy then tocopy else len
    ⟨v.unit_size, v.capacity, v.count, list_write v.data pos (items.take len')⟩

/-- vec_set = vec_copy of a single item. -/
def vec_set (v : Vec) (pos : Nat) (item : Nat) : Vec :=
  vec_copy v pos [item] 1

/-- vec_get: read the item under the (clamped) pointer at pos.  A read through
the wrapped-around pointer of an empty vector is undefined behaviour in C and
is modelled as the default 0. -/
def vec_get (v : Vec) (pos : Nat) : Nat :=
  v.data.getD (vec_idx_at v pos) 0

/-- The source span used when a call site passes vec_ptr_at(self, p) as the
`items` argument of vec_copy: the buffer contents from that (clamped) slot on. -/
def vec_src (v : Vec) (pos : Nat) : List Nat :=
  v.data.drop (vec_idx_at v pos)

/-- The spec's vector zero-fill invariant: every slot in [count, capacity) is
zero. -/
def zero_suffix (v : Vec) : Prop :=
  ∀ i, v.count ≤ i → i < v.capacity → v.data.getD i 0 = 0

/-- Well-formedness of a live vector/string object as produced by the
factories: the storage really has `capacity` slots, the logical count fits
inside it, and the capacity is at least the initial 128 (it starts there and
only ever doubles). -/
def StrWF (v : Vec) : Prop :=
  v.data.length = v.capacity ∧ v.count ≤ v.capacity ∧ VEC_INIT_CAPACITY ≤ v.capacity

/-- The logical content of a vector: its first `count` items. -/
def content (v : Vec) : List Nat := v.data.take v.count

/-! ## String layer (str.c)

A string is a Vec with unit_size 1 whose data entries are the bytes of the
buffer.  C strings passed as `const char *` arguments are modelled as the
list of their bytes up to (excluding) the NUL terminator, so `strlen`
becomes `List.length`. -/

/-- str_length. -/
def str_length (s : Vec) : Nat := s.count

/-- str_resize: resize to size + 1, store the terminator byte directly at
offset `size` (a raw buffer store, not a vec operation), resize back to
`size`. -/
def str_resize (s : Vec) (size : Nat) : Vec :=
  let s1 := vec_resize s (add64 size 1)
  let s2 : Vec := ⟨s1.unit_size, s1.capacity, s1.count, list_write s1.data size [0]⟩
  vec_resize s2 size

/-- str_extend. -/
def str_extend (s : Vec) (count : Nat) : Vec :=
  str_resize s (add64 (str_length s) count)

/-- str_empty. -/
def str_empty : Vec := vec_new 1

/-- str_new_len. -/
def str_new_len (count : Nat) : Vec := vec_new_len 1 count

/-- str_new: copy the C string into a fresh string of its length. -/
def str_new (str : List Nat) : Vec :=
  vec_copy (str_new_len str.length) 0 str str.length

/-- str_clear. -/
def str_clear (s : Vec) : Vec := str_resize s 0

/-- str_insert: fails for pos past the end; otherwise extends by the length
of the inserted text, shifts the suffix starting at pos rightwards with the
overlap-safe vec_copy (whose source pointer is vec_ptr_at(self, pos)), and
writes the text at pos. -/
def str_insert (s : Vec) (pos : Nat) (str : List Nat) : Option Vec :=
  if pos > str_length s then none
  else
    let n := str.length
    let s1 := str_extend s n
    let s2 := vec_copy s1 (add64 pos n) (vec_src s1 pos) (sub64 (str_length s1) pos)
    some (vec_copy s2 pos str n)

/-- str_append = insert at the end. -/
def str_append (s : Vec) (str : List Nat) : Option Vec :=
  str_insert s (str_length s) str

/-! ### str_find (Knuth-Morris-Pratt) -/

/-- The while-loop of kmp_compute_lps.  The lps list is the data buffer of
the table vector: str_find allocates it with vec_new_len(sizeof(size_t), m),
which stores count = m but always allocates exactly VEC_INIT_CAPACITY = 128
slots (the C1 under-allocation), so the buffer has 128 entries regardless of
the pattern length.  vec_set/vec_get on slots below 128 are List.set/getD;
for a pattern longer than 128 bytes the C accesses at indices >= 128 run past
the allocation (heap overflow, undefined behaviour), modelled by the file's
convention for out-of-bounds vec accesses: the write is dropped (List.set
past the end is a no-op) and the read yields the default 0.
The loop is not structurally recursive (`len` falls back through the table),
so it takes explicit fuel; `kmp_compute_lps` passes enough fuel for the
loop's measure, which the proofs below show is never exhausted. -/
def kmp_lps_loop : Nat → List Nat → List Nat → Nat → Nat → List Nat
  | 0, _, lps, _, _ => lps
  | fuel + 1, pat, lps, i, len =>
    if i < pat.length then
      if pat.getD i 0 = pat.getD len 0 then
        kmp_lps_loop fuel pat (lps.set i (len + 1)) (i + 1) (len + 1)
      else if len ≠ 0 then
        kmp_lps_loop fuel pat lps i (lps.getD (len - 1) 0)
      else
        kmp_lps_loop fuel pat (lps.set i 0) (i + 1) 0
    else lps

/-- kmp_compute_lps: lps[0] = 0 (a direct store), then the loop from i = 1,
len = 0, over the fixed 128-slot buffer of vec_new_len. -/
def kmp_compute_lps (pat : List Nat) : List Nat :=
  kmp_lps_loop (2 * pat.length + 1) pat ((List.replicate VEC_INIT_CAPACITY 0).set 0 0) 1 0

/-- The scan loop of str_find.  `sdata` is the string's buffer and `n` its
count; `pos` accumulates the match offsets through the ordinary vec
operations.  Fuel bounds the while-loop iterations (the C loop terminates
because lps values are below their index; str_find passes fuel covering the
loop measure, shown sufficient below). -/
def str_find_loop : Nat → List Nat → Nat → List Nat → List Nat → Nat → Nat → Vec → Vec
  | 0, _, _, _, _, _, _, pos => pos
  | fuel + 1, sdata, n, pat, lps, i, j, pos =>
    if i < n then
      let hit := sdata.getD i 0 = pat.getD j 0
      let i1 := if hit then i + 1 else i
      let j1 := if hit then j + 1 else j
      if j1 = pat.length then
        let pos1 := vec_extend pos 1
        let pos2 := vec_set pos1 (sub64 pos1.count 1) (sub64 i1 j1)
        str_find_loop fuel sdata n pat lps i1 (lps.getD (j1 - 1) 0) pos2
      else if i1 < n ∧ ¬ sdata.getD i1 0 = pat.getD j1 0 then
        if j1 ≠ 0 then
          str_find_loop fuel sdata n pat lps i1 (lps.getD (j1 - 1) 0) pos
        else
          str_find_loop fuel sdata n pat lps (i1 + 1) j1 pos
      else
        str_find_loop fuel sdata n pat lps i1 j1 pos
    else pos

/-- str_find: empty pattern returns NULL (the explicit `if (!m) return NULL`
of str.c); otherwise runs KMP and returns the vector of offsets. -/
def str_find (s : Vec) (pat : List Nat) : Option Vec :=
  let n := str_length s
  let m := pat.length
  if m = 0 then none
  else
    let pos := vec_new 8
    let lps := kmp_compute_lps pat
    some (str_find_loop ((n + 1) * (m + 1)) s.data n pat lps 0 0 pos)

/-! ### str_replace -/

/-- The size_t value of a C int: two's-complement cast, so every negative
limit becomes a huge unsigned bound. -/
def int_to_size_t (n : Int) : Nat := (n % (W : Int)).toNat

/-- The inner offset-adjustment loop of str_replace: positions j, j+1, ...,
pos_count-1 of the match vector each get `shift` added (in size_t). -/
def replace_adjust (posv : Vec) (shift j pos_count : Nat) : Vec :=
  (List.range' j (pos_count - j)).foldl
    (fun pv k => vec_set pv k (add64 (vec_get pv k) shift)) posv

/-- The byte-writing loop of str_replace: vec_set of new[j] at index + j for
each j < len_new. -/
def replace_write (sv : Vec) (index : Nat) (new : List Nat) : Vec :=
  (List.range new.length).foldl
    (fun sv j => vec_set sv (add64 index j) (new.getD j 0)) sv

/-- The replacement for-loop of str_replace; the structural counter `fuel` is
the number of remaining iterations (pos_count - i), so the loop condition
i < pos_count coincides with fuel reaching 0. -/
def str_replace_loop (new : List Nat) (len_old len_new shift limit64 pos_count : Nat) :
    Nat → Nat → Vec → Vec → Vec
  | 0, _, self, _ => self
  | fuel + 1, i, self, posv =>
    if i ≥ limit64 then self
    else
      let index := vec_get posv i
      if shift ≠ 0 then
        let s1 := str_extend self shift
        let s2 := vec_copy s1 (add64 index len_new)
                    (vec_src s1 (add64 index len_old)) (sub64 (str_length s1) index)
        let posv' := replace_adjust posv shift (i + 1) pos_count
        str_replace_loop new len_old len_new shift limit64 pos_count fuel (i + 1)
          (replace_write s2 index new) posv'
      else
        str_replace_loop new len_old len_new shift limit64 pos_count fuel (i + 1)
          (replace_write self index new) posv

/-- str_replace: fails when the old string is longer than self or when
str_find fails (which, apart from allocation failure, happens exactly for the
empty old string); an empty match vector returns self unchanged. -/
def str_replace (self : Vec) (old new : List Nat) (limit : Int) : Option Vec :=
  let len_old := old.length
  if len_old > str_length self then none
  else
    match str_find self old with
    | none => none
    | some posv =>
      let pos_count := posv.count
      if pos_count = 0 then some self
      else
        let len_new := new.length
        let shift := sub64 len_new len_old
        some (str_replace_loop new len_old len_new shift (int_to_size_t limit)
                pos_count pos_count 0 self posv)

/-- str_remove = replace by the empty string with limit -1. -/
def str_remove (self : Vec) (str : List Nat) : Option Vec :=
  str_replace self str [] (-1)

/-- str_repeat: count = 0 returns self unchanged; otherwise the buffer is
extended by len * count (yielding total length len * (count + 1)) and the
first len bytes are copied to slot i for each i < count. -/
def str_repeat (self : Vec) (count : Nat) : Vec :=
  if count = 0 then self
  else
    let len := str_length self
    let s1 := str_extend self (mul64 len count)
    (List.range count).foldl (fun sv i => vec_copy sv (mul64 i len) sv.data len) s1

/-! ### str_format -/

/-- Arguments of str_format, one per va_arg fetch.  The value for %f carries
the bytes of the C library's %g rendering, which has no bit-level model
here. -/
inductive FmtArg where
  | s (str : List Nat)
  | i (n : Int)
  | l (n : Int)
  | u (n : Nat)
  | f (rendered : List Nat)
deriving Repr, DecidableEq

/-- va_arg reinterpretation (fetching a mismatched type is undefined
behaviour in C; the embedding returns a default). -/
def FmtArg.asStr : FmtArg → List Nat
  | .s str => str
  | _ => []

def FmtArg.asInt : FmtArg → Int
  | .i n => n
  | _ => 0

def FmtArg.asLng : FmtArg → Int
  | .l n => n
  | _ => 0

def FmtArg.asUns : FmtArg → Nat
  | .u n => n
  | _ => 0

def FmtArg.asFlt : FmtArg → List Nat
  | .f r => r
  | _ => []

/-- ASCII decimal digits of a natural number (the snprintf %llu rendering). -/
def natDigits (n : Nat) : List Nat := (Nat.toDigits 10 n).map Char.toNat

/-- ASCII rendering of a signed decimal (the snprintf %d / %lld rendering). -/
def intDigits (n : Int) : List Nat :=
  if n < 0 then 45 :: natDigits n.natAbs else natDigits n.toNat

/-- One %-directive of str_format: the bytes it appends and the argument list
after the va_arg fetch.  115/105/108/117/102 are 's','i','l','u','f'; any
other directive appends the literal "???" and fetches nothing. -/
def fmt_dispatch (d : Nat) (args : List FmtArg) : List Nat × List FmtArg :=
  if d = 115 then ((args.headD (.s [])).asStr, args.tail)
  else if d = 105 then (intDigits (args.headD (.s [])).asInt, args.tail)
  else if d = 108 then (intDigits (args.headD (.s [])).asLng, args.tail)
  else if d = 117 then (natDigits (args.headD (.s [])).asUns, args.tail)
  else if d = 102 then ((args.headD (.s [])).asFlt, args.tail)
  else ([63, 63, 63], args)

/-- The do-while scanner of str_format.  A literal byte goes through
vec_extend + vec_set at the running position (note: no terminator is
written on this path); a directive byte appends via str_append.  A trailing
'%' with nothing after it stops the scan.  str_append at the end position
never returns none (its bounds guard cannot fire), which getD reflects. -/
def str_format_loop : List Nat → List FmtArg → Vec → Nat → Vec
  | [], _, self, _ => self
  | c :: fmt', args, self, pos =>
    if c ≠ 37 then
      str_format_loop fmt' args (vec_set (vec_extend self 1) pos c) (pos + 1)
    else
      match fmt' with
      | [] => self
      | d :: fmt'' =>
        let pa := fmt_dispatch d args
        str_format_loop fmt'' pa.2 ((str_append self pa.1).getD self) (pos + pa.1.length)

/-- str_format: an empty format string returns self untouched (the early
`if (*fmt == '\0') return self`); otherwise the string is cleared and the
scanner runs. -/
def str_format (self : Vec) (fmt : List Nat) (args : List FmtArg) : Vec :=
  if fmt = [] then self
  else str_format_loop fmt args (str_clear self) 0

/-! ### Reference definitions written from the specification's words -/

/-- occursAt s pat i: pat occurs in s at offset i. -/
def occursAt (s pat : List Nat) (i : Nat) : Prop :=
  (s.drop i).take pat.length = pat

instance occursAt_decidable (s pat : List Nat) (i : Nat) : Decidable (occursAt s pat i) := by
  unfold occursAt
  infer_instance

/-- Modelled from the spec: the set of starting offsets at which the pattern
occurs, in ascending order, overlapping occurrences included — the reference
result that str_find is claimed to compute. -/
def naive_find (s pat : List Nat) : List Nat :=
  (List.range (s.length + 1 - pat.length)).filter (fun i => decide (occursAt s pat i))

/-- b is a border of the length-L prefix of pat: the first b bytes coincide
with the last b bytes of that prefix (stated pointwise through getD). -/
def Border (pat : List Nat) (L b : Nat) : Prop :=
  b ≤ L ∧ ∀ t, t < b → pat.getD t 0 = pat.getD (L - b + t) 0

/-- The specification of the KMP lps table: entry k is the longest proper
border of the length-(k+1) prefix of the pattern. -/
def LpsOk (pat lps : List Nat) : Prop :=
  pat.length ≤ lps.length ∧
    ∀ k, k < pat.length →
      Border pat (k + 1) (lps.getD k 0) ∧ lps.getD k 0 ≤ k ∧
        ∀ b, b ≤ k → Border pat (k + 1) b → b ≤ lps.getD k 0

/-- The pattern matches the buffer at offset u, inside the first n bytes
(pointwise formulation of occursAt on the logical content). -/
def matchAt (sdata pat : List Nat) (n u : Nat) : Prop :=
  u + pat.length ≤ n ∧ ∀ t, t < pat.length → sdata.getD (u + t) 0 = pat.getD t 0

instance matchAt_decidable (sdata pat : List Nat) (n u : Nat) :
    Decidable (matchAt sdata pat n u) := by
  unfold matchAt
  infer_instance

/-- The match offsets below threshold t, in ascending order. -/
def occList (sdata pat : List Nat) (n t : Nat) : List Nat :=
  (List.range t).filter (fun u => decide (matchAt sdata pat n u))

/-- Modelled from the spec: the bytes produced by one pass of the format
scanner, depending only on the format string and the arguments — the
reference content that str_format is claimed to produce on a cleared
string. -/
def fmt_render : List Nat → List FmtArg → List Nat
  | [], _ => []
  | c :: fmt', args =>
    if c ≠ 37 then c :: fmt_render fmt' args
    else
      match fmt' with
      | [] => []
      | d :: fmt'' =>
        let pa := fmt_dispatch d args
        pa.1 ++ fmt_render fmt'' pa.2

/-- Every fragment a directive appends is smaller than the initial capacity;
a single larger fragment would outgrow the one capacity doubling of
vec_resize (the C1 bug) and overflow the allocation, so the format claims are
settled inside this defined regime. -/
def pieces_smallb : List Nat → List FmtArg → Bool
  | [], _ => true
  | c :: fmt', args =>
    if c ≠ 37 then pieces_smallb fmt' args
    else
      match fmt' with
      | [] => true
      | d :: fmt'' =>
        decide ((fmt_dispatch d args).1.length + 1 ≤ VEC_INIT_CAPACITY) &&
          pieces_smallb fmt'' (fmt_dispatch d args).2

end LibVest

namespace LibVest

set_option maxRecDepth 4000

/- ------------------------------------------------------------------ -/
/- Supporting lemmas                                                   -/
/- ------------------------------------------------------------------ -/

theorem W_pos : 0 < W := by norm_num [W]

theorem add64_eq (a b : Nat) (h : a + b < W) : add64 a b = a + b :=
  Nat.mod_eq_of_lt h

theorem sub64_eq (a b : Nat) (hb : b ≤ a) (ha : a < W) : sub64 a b = a - b := by
  unfold sub64
  rw [Nat.mod_eq_of_lt (lt_of_le_of_lt hb ha)]
  have h1 : a + (W - b) = W + (a - b) := by omega
  rw [h1, Nat.add_mod_left]
  exact Nat.mod_eq_of_lt (by omega)

theorem mul64_eq (a b : Nat) (h : a * b < W) : mul64 a b = a * b :=
  Nat.mod_eq_of_lt h

theorem vec_resize_grow_def (v : Vec) (c : Nat) (h : v.capacity ≤ c) :
    vec_resize v c =
      ⟨v.unit_size, v.capacity * 2, c,
        v.data.take v.count ++ List.replicate (v.capacity * 2 - v.count) 0⟩ := by
  unfold vec_resize
  rw [if_pos h]

theorem vec_resize_shrink_def (v : Vec) (c : Nat) (h : c < v.capacity) :
    vec_resize v c = ⟨v.unit_size, v.capacity, c, v.data⟩ := by
  unfold vec_resize
  rw [if_neg (by omega)]

theorem getD_replicate_zero (n i : Nat) : (List.replicate n (0 : Nat)).getD i 0 = 0 := by
  induction n generalizing i with
  | zero => simp [List.getD]
  | succ n ih =>
    cases i with
    | zero => simp [List.replicate, List.getD]
    | succ i =>
      rw [List.replicate]
      show (0 :: List.replicate n 0).getD (i + 1) 0 = 0
      rw [List.getD_cons_succ]
      exact ih i

theorem list_write_length (l : List Nat) (pos : Nat) (src : List Nat) :
    (list_write l pos src).length = l.length := by
  induction l generalizing pos src with
  | nil => simp [list_write]
  | cons a l ih =>
    cases pos with
    | zero =>
      cases src with
      | nil => simp [list_write]
      | cons b s => simpa [list_write] using ih 0 s
    | succ n => simpa [list_write] using ih n src

theorem list_write_take_le (l : List Nat) (p q : Nat) (src : List Nat) (h : q ≤ p) :
    (list_write l p src).take q = l.take q := by
  induction l generalizing p q src with
  | nil => simp [list_write]
  | cons a l ih =>
    cases p with
    | zero =>
      have hq : q = 0 := by omega
      subst hq
      simp
    | succ n =>
      cases q with
      | zero => simp
      | succ q' =>
        show (a :: list_write l n src).take (q' + 1) = (a :: l).take (q' + 1)
        rw [List.take_succ_cons, List.take_succ_cons, ih n q' src (by omega)]

theorem list_write_take_full (l : List Nat) (p : Nat) (src : List Nat)
    (h : p + src.length ≤ l.length) :
    (list_write l p src).take (p + src.length) = l.take p ++ src := by
  induction l generalizing p src with
  | nil =>
    simp only [List.length_nil, Nat.le_zero] at h
    have hp : p = 0 := by omega
    have hs : src = [] := List.length_eq_zero.mp (by omega)
    subst hp
    subst hs
    simp [list_write]
  | cons a l ih =>
    cases p with
    | zero =>
      cases src with
      | nil => simp [list_write]
      | cons b s =>
        show (b :: list_write l 0 s).take (0 + (s.length + 1)) = (a :: l).take 0 ++ b :: s
        have h0 : 0 + (s.length + 1) = (0 + s.length) + 1 := by omega
        rw [h0, List.take_succ_cons, ih 0 s (by simp at h; omega)]
        simp
    | succ n =>
      show (a :: list_write l n src).take (n + 1 + src.length) = (a :: l).take (n + 1) ++ src
      have h0 : n + 1 + src.length = (n + src.length) + 1 := by omega
      rw [h0, List.take_succ_cons, List.take_succ_cons, ih n src (by simp at h; omega)]
      rfl

theorem vec_copy_zero_len (v : Vec) (pos : Nat) (items : List Nat) :
    vec_copy v pos items 0 = v := by
  unfold vec_copy
  simp

theorem vec_copy_oob (v : Vec) (pos : Nat) (items : List Nat) (len : Nat)
    (h : v.count ≤ pos) : vec_copy v pos items len = v := by
  unfold vec_copy
  simp [h]

theorem vec_copy_in_range (v : Vec) (pos : Nat) (items : List Nat) (len : Nat)
    (hlen0 : len ≠ 0) (hpos : pos < v.count) (hlen : len ≤ v.count - pos) :
    vec_copy v pos items len =
      ⟨v.unit_size, v.capacity, v.count, list_write v.data pos (items.take len)⟩ := by
  unfold vec_copy
  rw [if_neg hlen0, if_neg (by omega)]
  have hno : ¬ len > v.count - pos := by omega
  show (⟨v.unit_size, v.capacity, v.count,
      list_write v.data pos
        (items.take (if len > v.count - pos then v.count - pos else len))⟩ : Vec) = _
  rw [if_neg hno]

theorem vec_resize_spec (v : Vec) (c : Nat) (h1 : v.data.length = v.capacity)
    (h2 : v.count ≤ v.capacity) (hc : c ≤ 2 * v.capacity) :
    (vec_resize v c).count = c ∧
      (vec_resize v c).data.length = (vec_resize v c).capacity ∧
      v.capacity ≤ (vec_resize v c).capacity ∧
      c ≤ (vec_resize v c).capacity ∧
      ∀ q, q ≤ v.count → (vec_resize v c).data.take q = v.data.take q := by
  by_cases hg : v.capacity ≤ c
  · rw [vec_resize_grow_def v c hg]
    refine ⟨rfl, ?_, ?_, ?_, ?_⟩
    · show (v.data.take v.count ++ List.replicate (v.capacity * 2 - v.count) 0).length =
        v.capacity * 2
      rw [List.length_append, List.length_take, List.length_replicate]
      omega
    · show v.capacity ≤ v.capacity * 2
      omega
    · show c ≤ v.capacity * 2
      omega
    · intro q hq
      show (v.data.take v.count ++ List.replicate (v.capacity * 2 - v.count) 0).take q =
        v.data.take q
      rw [List.take_append_of_le_length (by rw [List.length_take]; omega),
        List.take_take, Nat.min_eq_left hq]
  · have hlt : c < v.capacity := by omega
    rw [vec_resize_shrink_def v c hlt]
    exact ⟨rfl, h1, le_refl _, by show c ≤ v.capacity; omega, fun q _ => rfl⟩

/-- Unfolding of str_resize (the let chain written out). -/
theorem str_resize_def (s : Vec) (m : Nat) :
    str_resize s m =
      vec_resize
        ⟨(vec_resize s (add64 m 1)).unit_size, (vec_resize s (add64 m 1)).capacity,
          (vec_resize s (add64 m 1)).count,
          list_write (vec_resize s (add64 m 1)).data m [0]⟩ m := rfl

theorem str_resize_spec (s : Vec) (m : Nat) (h1 : s.data.length = s.capacity)
    (h2 : s.count ≤ s.capacity) (hroom : m + 1 ≤ 2 * s.capacity) (hW : m + 1 < W) :
    (str_resize s m).count = m ∧
      (str_resize s m).data.length = (str_resize s m).capacity ∧
      s.capacity ≤ (str_resize s m).capacity ∧
      m ≤ (str_resize s m).capacity ∧
      ∀ q, q ≤ s.count → q ≤ m → (str_resize s m).data.take q = s.data.take q := by
  have hadd : add64 m 1 = m + 1 := add64_eq m 1 hW
  have R := vec_resize_spec s (m + 1) h1 h2 hroom
  rw [str_resize_def, hadd]
  have hs2len : (list_write (vec_resize s (m + 1)).data m [0]).length =
      (vec_resize s (m + 1)).capacity := by
    rw [list_write_length]
    exact R.2.1
  have hmcap : m < (vec_resize s (m + 1)).capacity := by
    have := R.2.2.2.1
    omega
  rw [vec_resize_shrink_def
    ⟨(vec_resize s (m + 1)).unit_size, (vec_resize s (m + 1)).capacity,
      (vec_resize s (m + 1)).count, list_write (vec_resize s (m + 1)).data m [0]⟩ m hmcap]
  refine ⟨rfl, hs2len, R.2.2.1, by show m ≤ (vec_resize s (m + 1)).capacity; omega, ?_⟩
  intro q hq hqm
  show (list_write (vec_resize s (m + 1)).data m [0]).take q = s.data.take q
  rw [list_write_take_le _ _ _ _ hqm]
  exact R.2.2.2.2 q hq

/-- Appending one item through vec_extend + vec_set at the old count: the
pattern used by the format scanner's literal path and by str_find's offset
recording. -/
theorem vec_push_spec (v : Vec) (x : Nat) (h1 : v.data.length = v.capacity)
    (h2 : v.count ≤ v.capacity) (h3 : 0 < v.capacity) (hW : v.count + 1 < W) :
    (vec_set (vec_extend v 1) v.count x).count = v.count + 1 ∧
      (vec_set (vec_extend v 1) v.count x).data.length =
        (vec_set (vec_extend v 1) v.count x).capacity ∧
      v.capacity ≤ (vec_set (vec_extend v 1) v.count x).capacity ∧
      (vec_set (vec_extend v 1) v.count x).count ≤
        (vec_set (vec_extend v 1) v.count x).capacity ∧
      content (vec_set (vec_extend v 1) v.count x) = content v ++ [x] := by
  have hadd : add64 v.count 1 = v.count + 1 := add64_eq _ _ hW
  have R := vec_resize_spec v (v.count + 1) h1 h2 (by omega)
  unfold vec_extend
  rw [hadd]
  have hset : vec_set (vec_resize v (v.count + 1)) v.count x =
      ⟨(vec_resize v (v.count + 1)).unit_size, (vec_resize v (v.count + 1)).capacity,
        (vec_resize v (v.count + 1)).count,
        list_write (vec_resize v (v.count + 1)).data v.count ([x].take 1)⟩ := by
    unfold vec_set
    exact vec_copy_in_range _ _ _ _ (by omega) (by rw [R.1]; omega) (by rw [R.1]; omega)
  rw [hset]
  have htake1 : ([x] : List Nat).take 1 = [x] := rfl
  rw [htake1]
  refine ⟨R.1, ?_, R.2.2.1, ?_, ?_⟩
  · show (list_write (vec_resize v (v.count + 1)).data v.count [x]).length =
      (vec_resize v (v.count + 1)).capacity
    rw [list_write_length]
    exact R.2.1
  · show (vec_resize v (v.count + 1)).count ≤ (vec_resize v (v.count + 1)).capacity
    rw [R.1]
    exact R.2.2.2.1
  · show (list_write (vec_resize v (v.count + 1)).data v.count [x]).take
        (vec_resize v (v.count + 1)).count = content v ++ [x]
    rw [R.1]
    have hfull := list_write_take_full (vec_resize v (v.count + 1)).data v.count [x]
      (by rw [R.2.1]; have h5 := R.2.2.2.1; simp only [List.length_singleton]; omega)
    simp only [List.length_singleton] at hfull
    rw [hfull, R.2.2.2.2 v.count (le_refl _)]
    rfl

theorem str_append_spec (s : Vec) (p : List Nat) (hWF : StrWF s)
    (hp : p.length + 1 ≤ VEC_INIT_CAPACITY) (hW : s.count + p.length + 1 < W) :
    ∃ t, str_append s p = some t ∧ t.count = s.count + p.length ∧ StrWF t ∧
      content t = content s ++ p := by
  obtain ⟨hlen, hcnt, hcap⟩ := hWF
  have hroom : (s.count + p.length) + 1 ≤ 2 * s.capacity := by
    unfold VEC_INIT_CAPACITY at hcap hp
    omega
  have hadd : add64 (str_length s) p.length = s.count + p.length :=
    add64_eq _ _ (by show s.count + p.length < W; omega)
  have R := str_resize_spec s (s.count + p.length) hlen hcnt hroom (by omega)
  have hext : str_extend s p.length = str_resize s (s.count + p.length) := by
    unfold str_extend
    rw [hadd]
  simp only [str_append, str_insert, if_neg (by omega : ¬ str_length s > str_length s), hext]
  have hshift : vec_copy (str_resize s (s.count + p.length))
      (add64 (str_length s) p.length)
      (vec_src (str_resize s (s.count + p.length)) (str_length s))
      (sub64 (str_length (str_resize s (s.count + p.length))) (str_length s)) =
      str_resize s (s.count + p.length) := by
    apply vec_copy_oob
    rw [hadd, R.1]
  rw [hshift]
  rcases Nat.eq_zero_or_pos p.length with hp0 | hp0
  · have hpnil : p = [] := List.length_eq_zero.mp hp0
    subst hpnil
    simp only [List.length_nil, Nat.add_zero] at R ⊢
    rw [vec_copy_zero_len]
    refine ⟨_, rfl, ?_, ⟨R.2.1, ?_, ?_⟩, ?_⟩
    · exact R.1
    · rw [R.1]
      exact R.2.2.2.1
    · exact le_trans hcap R.2.2.1
    · show content (str_resize s s.count) = content s ++ []
      unfold content
      rw [R.1]
      simp only [List.append_nil]
      exact R.2.2.2.2 s.count (le_refl _) (le_refl _)
  · have hcopy : vec_copy (str_resize s (s.count + p.length)) (str_length s) p p.length =
        ⟨(str_resize s (s.count + p.length)).unit_size,
          (str_resize s (s.count + p.length)).capacity,
          (str_resize s (s.count + p.length)).count,
          list_write (str_resize s (s.count + p.length)).data (str_length s)
            (p.take p.length)⟩ := by
      apply vec_copy_in_range
      · omega
      · show s.count < (str_resize s (s.count + p.length)).count
        rw [R.1]
        omega
      · show p.length ≤ (str_resize s (s.count + p.length)).count - s.count
        rw [R.1]
        omega
    rw [hcopy, List.take_length]
    refine ⟨_, rfl, ?_, ⟨?_, ?_, ?_⟩, ?_⟩
    · exact R.1
    · show (list_write (str_resize s (s.count + p.length)).data (str_length s) p).length =
        (str_resize s (s.count + p.length)).capacity
      rw [list_write_length]
      exact R.2.1
    · show (str_resize s (s.count + p.length)).count ≤
        (str_resize s (s.count + p.length)).capacity
      rw [R.1]
      exact R.2.2.2.1
    · exact le_trans hcap R.2.2.1
    · show (list_write (str_resize s (s.count + p.length)).data (str_length s) p).take
        (str_resize s (s.count + p.length)).count = content s ++ p
      rw [R.1]
      have hfull := list_write_take_full (str_resize s (s.count + p.length)).data s.count p
        (by rw [R.2.1]; have h5 := R.2.2.2.1; omega)
      rw [show str_length s = s.count from rfl, hfull,
        R.2.2.2.2 s.count (le_refl _) (by omega)]
      rfl

theorem str_clear_def (s : Vec) (hcap : 1 < s.capacity) :
    str_clear s = ⟨s.unit_size, s.capacity, 0, list_write s.data 0 [0]⟩ := by
  have hadd : add64 0 1 = 1 := add64_eq 0 1 (by norm_num [W])
  unfold str_clear
  rw [str_resize_def, hadd, vec_resize_shrink_def s 1 hcap]
  rw [vec_resize_shrink_def ⟨s.unit_size, s.capacity, 1, list_write s.data 0 [0]⟩ 0
    (by show (0 : Nat) < s.capacity; omega)]

theorem str_clear_spec (s : Vec) (hWF : StrWF s) :
    (str_clear s).count = 0 ∧ StrWF (str_clear s) := by
  obtain ⟨hlen, hcnt, hcap⟩ := hWF
  have h1 : (1 : Nat) < s.capacity := by
    unfold VEC_INIT_CAPACITY at hcap
    omega
  rw [str_clear_def s h1]
  refine ⟨rfl, ?_, ?_, ?_⟩
  · show (list_write s.data 0 [0]).length = s.capacity
    rw [list_write_length]
    exact hlen
  · show (0 : Nat) ≤ s.capacity
    omega
  · exact hcap

/- ------------------------------------------------------------------ -/
/- C1: count ≤ capacity after create_with_length and resize            -/
/- ------------------------------------------------------------------ -/

/-- C1: the claim says `count ≤ capacity` holds after create_with_length for
any count and after any successful resize.  The code violates both parts:
vec_new_len always allocates exactly VEC_INIT_CAPACITY = 128 slots yet stores
the requested count, so create_with_length(4, 129) yields count 129 >
capacity 128; and vec_resize doubles the capacity only once, so resizing a
fresh vector (capacity 128) to 300 yields capacity 256 < count 300.  This
theorem evaluates the code at both failing inputs. -/
theorem C1_count_capacity_violated :
    (vec_new_len 4 129).capacity < (vec_new_len 4 129).count ∧
      (vec_resize (vec_new_len 1 0) 300).capacity <
        (vec_resize (vec_new_len 1 0) 300).count := by
  constructor
  · decide
  · decide

/- ------------------------------------------------------------------ -/
/- C7: zeroed tail [count, capacity)                                   -/
/- ------------------------------------------------------------------ -/

/-- C7 counterexample: the claim says every mutating call leaves the bytes at
positions [count, capacity) zero.  But a shrinking resize changes only
`count`: after writing 1,1,1 into a 3-item vector and resizing it down to 1,
position 1 (which lies in [count, capacity) = [1, 128)) still holds 1. -/
theorem C7_zero_suffix_counterexample :
    ¬ zero_suffix (vec_resize (vec_copy (vec_new_len 1 3) 0 [1, 1, 1] 3) 1) := by
  intro h
  have h1 := h 1 (by decide) (by decide)
  revert h1
  decide

/-- C7 amended: the zero-fill of [count, capacity) holds after creation (the
whole allocation is memset to zero) and after every capacity-growing resize
(the realloc'd buffer is memset from the old count to the new capacity); a
non-growing resize — in particular every shrink — leaves the stored bytes
untouched, so nonzero data may remain in [count, capacity). -/
theorem C7_zero_suffix_amended :
    (∀ unit count, zero_suffix (vec_new_len unit count)) ∧
      (∀ v count, v.count ≤ v.capacity → v.capacity ≤ v.data.length →
        v.capacity ≤ count → zero_suffix (vec_resize v count)) := by
  constructor
  · intro unit count i _ hi
    show (List.replicate VEC_INIT_CAPACITY 0).getD i 0 = 0
    exact getD_replicate_zero VEC_INIT_CAPACITY i
  · intro v count hcnt hlen hgrow i hge hlt
    rw [vec_resize_grow_def v count hgrow] at hge hlt ⊢
    simp only at hge hlt ⊢
    have htake : (v.data.take v.count).length = v.count := by
      rw [List.length_take]
      omega
    have hi_ge : v.count ≤ i := le_trans (le_trans hcnt hgrow) hge
    rw [List.getD_append_right _ _ _ _ (by omega), htake]
    exact getD_replicate_zero _ _

/-- Witness for C7_zero_suffix_amended: a concrete growing resize. -/
theorem C7_zero_suffix_amended_witness :
    zero_suffix (vec_resize (vec_new_len 1 5) 130) :=
  C7_zero_suffix_amended.2 (vec_new_len 1 5) 130 (by decide) (by decide) (by decide)

/- ------------------------------------------------------------------ -/
/- C10: vec_ptr_at clamping and the empty-vector wraparound            -/
/- ------------------------------------------------------------------ -/

/-- C10: on a non-empty vector (count ≥ 1, with the allocation fitting in the
address space) vec_ptr_at returns the pointer to element min(pos, count - 1) —
pos = 0 giving the base handle (offset 0) — while on an empty vector any
pos > 0 computes the element index count - 1 = 2^64 - 1 by unsigned
wraparound, an offset that corresponds to no valid element since there are
none. -/
theorem C10_vec_ptr_at_clamp :
    (∀ (v : Vec) (pos : Nat), 1 ≤ v.count → v.count * v.unit_size < W →
        vec_ptr_at v pos = min pos (v.count - 1) * v.unit_size) ∧
      (∀ (v : Vec) (pos : Nat), v.count = 0 → 1 ≤ pos →
        vec_ptr_at v pos = (W - 1) * v.unit_size % W ∧ ∀ i, ¬ i < v.count) := by
  have hW1 : (1 : Nat) < W := by norm_num [W]
  constructor
  · intro v pos hcnt hfit
    rcases Nat.eq_zero_or_pos v.unit_size with hu | hu
    · -- unit_size = 0: every byte offset is 0 on both sides
      unfold vec_ptr_at
      simp [hu, mul64]
    · have hcW : v.count < W := by
        have h1 : v.count * 1 ≤ v.count * v.unit_size := Nat.mul_le_mul_left _ hu
        omega
      by_cases hpos : pos = 0
      · subst hpos
        unfold vec_ptr_at
        simp
      · by_cases hclamp : v.count ≤ pos
        · have hmin : min pos (v.count - 1) = v.count - 1 := by omega
          unfold vec_ptr_at
          rw [if_neg hpos, if_pos hclamp, hmin]
          rw [sub64_eq _ _ hcnt hcW]
          refine mul64_eq _ _ ?_
          have h2 : (v.count - 1) * v.unit_size ≤ v.count * v.unit_size :=
            Nat.mul_le_mul_right _ (by omega)
          omega
        · have hlt' : pos < v.count := by omega
          have hmin : min pos (v.count - 1) = pos := by omega
          unfold vec_ptr_at
          rw [if_neg hpos, if_neg (by omega), hmin]
          refine mul64_eq _ _ ?_
          have h2 : pos * v.unit_size ≤ v.count * v.unit_size :=
            Nat.mul_le_mul_right _ (by omega)
          omega
  · intro v pos h0 hpos
    have hpos' : ¬ pos = 0 := by omega
    have hclamp : pos ≥ v.count := by omega
    refine ⟨?_, ?_⟩
    · unfold vec_ptr_at
      rw [if_neg hpos', if_pos hclamp, h0]
      have hsub : sub64 0 1 = W - 1 := by
        unfold sub64
        rw [Nat.mod_eq_of_lt hW1, Nat.zero_add]
        exact Nat.mod_eq_of_lt (by omega)
      rw [hsub, mul64]
    · intro i
      omega

/-- Witness for C10_vec_ptr_at_clamp: concrete instantiations of both parts. -/
theorem C10_vec_ptr_at_clamp_witness :
    vec_ptr_at (vec_new_len 4 10) 25 = min 25 (10 - 1) * 4 ∧
      vec_ptr_at (vec_new_len 4 0) 3 = (W - 1) * 4 % W := by
  refine ⟨?_, ?_⟩
  · exact C10_vec_ptr_at_clamp.1 (vec_new_len 4 10) 25 (by decide) (by decide)
  · exact (C10_vec_ptr_at_clamp.2 (vec_new_len 4 0) 3 (by decide) (by decide)).1

/- ------------------------------------------------------------------ -/
/- C2: terminator byte after every mutating string operation           -/
/- ------------------------------------------------------------------ -/

/-- C2: the claim (and the design comment in str_resize) requires the byte at
offset count to be 0 after every successful mutating operation, str_format
included.  str_format's literal path appends through vec_extend + vec_set and
never writes a terminator, so it relies on leftover bytes: formatting "x"
into a string that previously held "abc" returns count = 1 with byte 'b'
(98), not 0, at offset 1.  This theorem evaluates the code at that failing
input. -/
theorem C2_format_terminator_violated :
    (str_format (str_new [97, 98, 99]) [120] []).count = 1 ∧
      (str_format (str_new [97, 98, 99]) [120] []).data.getD 1 0 = 98 := by
  constructor
  · decide
  · decide

/- ------------------------------------------------------------------ -/
/- C4: replace applies replacements left to right                       -/
/- ------------------------------------------------------------------ -/

/-- C4: evaluation at a failing input.  replace("ciao!", "ciao", "hi", -1)
must yield "hi!" under the claimed left-to-right replacement semantics, but
the code yields "hia": the shrinking str_extend stores its terminator over a
tail byte before the shift copy reads it, and the clamped vec_ptr_at source
pointer then re-reads the byte 'a'.  The claim's three quoted examples do
hold (each of their last matches reaches the end of the string, so the
corrupted bytes fall outside the final length); the first conjunct is the
failing input, the rest are the examples. -/
theorem C4_replace_shrink_corrupts_tail :
    (str_replace (str_new [99, 105, 97, 111, 33]) [99, 105, 97, 111]
          [104, 105] (-1)).map content = some [104, 105, 97] ∧
      (str_replace (str_new [99, 105, 97, 111, 32, 109, 111, 110, 100, 111, 32,
            99, 105, 97, 111]) [99, 105, 97, 111] [104, 105] (-1)).map content =
        some [104, 105, 32, 109, 111, 110, 100, 111, 32, 104, 105] ∧
      (str_replace (str_new [104, 105, 32, 109, 111, 110, 100, 111, 32, 104, 105])
          [104, 105] [99, 105, 97, 111] (-1)).map content =
        some [99, 105, 97, 111, 32, 109, 111, 110, 100, 111, 32, 99, 105, 97, 111] ∧
      (str_replace (str_new [65, 66, 65, 66, 65, 67, 67, 65, 66, 65])
          [65] [70] 1).map content =
        some [70, 66, 65, 66, 65, 67, 67, 65, 66, 65] := by
  refine ⟨?_, ?_, ?_, ?_⟩
  · decide
  · decide
  · decide
  · decide

/- ------------------------------------------------------------------ -/
/- C5: when replace returns the failure sentinel                        -/
/- ------------------------------------------------------------------ -/

/-- C5 counterexample: the claim says replace fails only when
length(old) > length(self) or allocation fails, and explicitly that an empty
old string yields a valid handle.  But replace("abc", "", "x", -1) returns
the failure sentinel although length("") = 0 ≤ 3: str_find rejects the empty
pattern with NULL and replace propagates it. -/
theorem C5_replace_empty_old_counterexample :
    str_replace (str_new [97, 98, 99]) [] [120] (-1) = none ∧
      List.length ([] : List Nat) ≤ str_length (str_new [97, 98, 99]) := by
  constructor
  · decide
  · decide

/-- C5 amended: with allocation succeeding, replace returns the failure
sentinel iff length(old) > length(self) or old is empty (the empty pattern
makes str_find return NULL, which replace propagates). -/
theorem C5_replace_none_iff (s : Vec) (old new : List Nat) (limit : Int) :
    str_replace s old new limit = none ↔
      old.length > str_length s ∨ old = [] := by
  by_cases h1 : old.length > str_length s
  · simp [str_replace, h1]
  · by_cases h2 : old = []
    · subst h2
      simp [str_replace, str_find, h1]
    · have hm : old.length ≠ 0 := fun h => h2 (List.length_eq_zero.mp h)
      simp only [str_replace, str_find, h1, hm]
      split
      · simp_all
      · split
        · simp_all
        · split <;> simp [h2]

/- ------------------------------------------------------------------ -/
/- C6: find on the empty pattern                                        -/
/- ------------------------------------------------------------------ -/

/-- C6 counterexample: the claim says find(s, "") returns an empty but
non-null sequence and that find is null only on allocation failure; the code
instead has an explicit `if (!m) return NULL` and returns the failure
sentinel for the empty pattern. -/
theorem C6_find_empty_pattern_counterexample :
    str_find (str_new [97]) [] = none := by
  decide

/-- C6 amended: with allocation succeeding, str_find returns the failure
sentinel exactly for the empty pattern; every non-empty pattern yields a
(possibly empty) vector of offsets. -/
theorem C6_find_none_iff (s : Vec) (pat : List Nat) :
    str_find s pat = none ↔ pat = [] := by
  by_cases h : pat.length = 0
  · simp [str_find, h, List.length_eq_zero.mp h]
  · have : pat ≠ [] := fun he => h (by simp [he])
    simp [str_find, h, this]

/- ------------------------------------------------------------------ -/
/- C8: repeat                                                           -/
/- ------------------------------------------------------------------ -/

/-- C8: the claim (with the spec and the test) requires repeat("hi ", 6) to
have length 3 * 6 = 18 = "hi hi hi hi hi hi ".  The code extends the buffer
BY len * count instead of TO len * count, yielding count = 21 =
len * (count + 1), with the final slot never written (three stray zero bytes
after the six copies).  repeat(s, 0) = s does hold.  This theorem evaluates
the code at the failing input. -/
theorem C8_repeat_length_bug :
    (str_repeat (str_new [104, 105, 32]) 6).count = 21 ∧
      content (str_repeat (str_new [104, 105, 32]) 6) =
        [104, 105, 32, 104, 105, 32, 104, 105, 32, 104, 105, 32, 104, 105, 32,
          104, 105, 32, 0, 0, 0] ∧
      str_repeat (str_new [104, 105, 32]) 0 = str_new [104, 105, 32] := by
  refine ⟨?_, ?_, ?_⟩
  · decide
  · decide
  · decide

/- ------------------------------------------------------------------ -/
/- C9: format clears first; empty format                                -/
/- ------------------------------------------------------------------ -/

/-- C9 counterexample: the claim says format(s, "") yields the empty string
(s cleared, nothing appended).  The code's first statement is
`if (*fmt == '\0') return self`, so the prior content survives untouched:
formatting "" into "abc" returns "abc", not "". -/
theorem C9_format_empty_fmt_counterexample :
    str_format (str_new [97, 98, 99]) [] [] = str_new [97, 98, 99] ∧
      content (str_format (str_new [97, 98, 99]) [] []) = [97, 98, 99] := by
  constructor
  · decide
  · decide

/-- Content refinement of the format scanner: run from a well-formed state at
position = count, it appends exactly fmt_render fmt args (provided every
directive fragment fits the single-doubling growth discipline and the total
stays inside size_t). -/
theorem str_format_loop_spec :
    ∀ (k : Nat) (fmt : List Nat) (args : List FmtArg) (s : Vec),
      fmt.length ≤ k → StrWF s → pieces_smallb fmt args = true →
      s.count + (fmt_render fmt args).length + 1 < W →
      content (str_format_loop fmt args s s.count) = content s ++ fmt_render fmt args := by
  intro k
  induction k with
  | zero =>
    intro fmt args s hlen _ _ _
    have hnil : fmt = [] := List.length_eq_zero.mp (by omega)
    subst hnil
    simp [str_format_loop, fmt_render]
  | succ k ih =>
    intro fmt args s hlen hWF hp hW
    have hcap0 : 0 < s.capacity := by
      have := hWF.2.2
      unfold VEC_INIT_CAPACITY at this
      omega
    match fmt with
    | [] => simp [str_format_loop, fmt_render]
    | [c] =>
      by_cases hc : c = 37
      · subst hc
        simp [str_format_loop, fmt_render]
      · have hrender : fmt_render [c] args = [c] := by
          simp [fmt_render, hc]
        have hWpush : s.count + 1 < W := by
          rw [hrender] at hW
          simp only [List.length_singleton] at hW
          omega
        have P := vec_push_spec s c hWF.1 hWF.2.1 hcap0 hWpush
        have hstep : str_format_loop [c] args s s.count =
            vec_set (vec_extend s 1) s.count c := by
          simp [str_format_loop, hc]
        rw [hstep, hrender]
        exact P.2.2.2.2
    | c :: d :: fmt'' =>
      by_cases hc : c = 37
      · subst hc
        have hp' : (fmt_dispatch d args).1.length + 1 ≤ VEC_INIT_CAPACITY ∧
            pieces_smallb fmt'' (fmt_dispatch d args).2 = true := by
          have h0 := hp
          simp [pieces_smallb] at h0
          exact h0
        have hrender : fmt_render (37 :: d :: fmt'') args =
            (fmt_dispatch d args).1 ++ fmt_render fmt'' (fmt_dispatch d args).2 := by
          simp [fmt_render]
        have hWapp : s.count + (fmt_dispatch d args).1.length + 1 < W := by
          rw [hrender, List.length_append] at hW
          omega
        obtain ⟨t, hts, htc, htWF, htcont⟩ :=
          str_append_spec s (fmt_dispatch d args).1 hWF hp'.1 hWapp
        have hstep : str_format_loop (37 :: d :: fmt'') args s s.count =
            str_format_loop fmt'' (fmt_dispatch d args).2
              ((str_append s (fmt_dispatch d args).1).getD s)
              (s.count + (fmt_dispatch d args).1.length) := by
          simp [str_format_loop]
        rw [hstep, hts, Option.getD_some, show s.count + (fmt_dispatch d args).1.length =
          t.count from htc.symm]
        rw [ih fmt'' (fmt_dispatch d args).2 t (by simp at hlen; omega) htWF hp'.2
          (by rw [hrender, List.length_append] at hW; omega)]
        rw [htcont, hrender, List.append_assoc]
      · have hrender : fmt_render (c :: d :: fmt'') args =
            c :: fmt_render (d :: fmt'') args := by
          simp [fmt_render, hc]
        have hWpush : s.count + 1 < W := by
          rw [hrender] at hW
          simp only [List.length_cons] at hW
          omega
        have P := vec_push_spec s c hWF.1 hWF.2.1 hcap0 hWpush
        have hstep : str_format_loop (c :: d :: fmt'') args s s.count =
            str_format_loop (d :: fmt'') args
              (vec_set (vec_extend s 1) s.count c) (s.count + 1) := by
          simp [str_format_loop, hc]
        rw [hstep, show s.count + 1 = (vec_set (vec_extend s 1) s.count c).count from P.1.symm]
        have hp2 : pieces_smallb (d :: fmt'') args = true := by
          have h0 := hp
          simp [pieces_smallb, hc] at h0
          simp [pieces_smallb, h0]
        have hWnext : (vec_set (vec_extend s 1) s.count c).count +
            (fmt_render (d :: fmt'') args).length + 1 < W := by
          rw [P.1]
          rw [hrender] at hW
          simp only [List.length_cons] at hW
          omega
        rw [ih (d :: fmt'') args (vec_set (vec_extend s 1) s.count c)
          (by simp only [List.length_cons] at hlen ⊢; omega)
          ⟨P.2.1, P.2.2.2.1, le_trans hWF.2.2 P.2.2.1⟩ hp2 hWnext]
        rw [P.2.2.2.2, hrender, List.append_assoc]
        rfl

/-- C9 amended: for every non-empty format string, format clears self first
and then scans, so the resulting content is exactly the scanner's rendering
of (fmt, args), independent of the prior content of self — provided self is a
well-formed string and every directive fragment is below the initial capacity
(a larger single fragment outgrows the one capacity doubling, the C1 bug).
For the empty format string the code returns self unchanged, without
clearing (see the counterexample). -/
theorem C9_format_clears_and_renders (s : Vec) (fmt : List Nat) (args : List FmtArg)
    (hWF : StrWF s) (hfmt : fmt ≠ []) (hp : pieces_smallb fmt args = true)
    (hW : (fmt_render fmt args).length + 1 < W) :
    content (str_format s fmt args) = fmt_render fmt args := by
  unfold str_format
  rw [if_neg hfmt]
  have hc := str_clear_spec s hWF
  have hrun := str_format_loop_spec fmt.length fmt args (str_clear s) (le_refl _) hc.2 hp
    (by rw [hc.1]; omega)
  rw [hc.1] at hrun
  rw [hrun]
  have hempty : content (str_clear s) = [] := by
    unfold content
    rw [hc.1]
    simp
  rw [hempty]
  simp

/-- Witness for C9_format_clears_and_renders: formatting "xy" into a string
currently holding "abc" yields exactly "xy". -/
theorem C9_format_clears_and_renders_witness :
    content (str_format (str_new [97, 98, 99]) [120, 121] []) = [120, 121] := by
  have h := C9_format_clears_and_renders (str_new [97, 98, 99]) [120, 121] []
    ⟨by decide, by decide, by decide⟩ (by decide) (by decide) (by decide)
  rw [h]
  decide

/- ------------------------------------------------------------------ -/
/- C3: Knuth-Morris-Pratt str_find                                      -/
/- ------------------------------------------------------------------ -/

theorem getD_set_self (l : List Nat) (i v : Nat) (h : i < l.length) :
    (l.set i v).getD i 0 = v := by
  rw [List.getD_eq_getElem?_getD, List.getElem?_set_eq_of_lt _ h]
  rfl

theorem getD_set_ne (l : List Nat) (i v k : Nat) (h : i ≠ k) :
    (l.set i v).getD k 0 = l.getD k 0 := by
  rw [List.getD_eq_getElem?_getD, List.getD_eq_getElem?_getD, List.getElem?_set_ne h]

theorem Border_zero (pat : List Nat) (L : Nat) : Border pat L 0 :=
  ⟨Nat.zero_le _, fun t ht => absurd ht (by omega)⟩

/-- Extending a border by one matching character. -/
theorem Border_extend (pat : List Nat) (i len : Nat) (hli : len ≤ i)
    (hB : Border pat i len) (hc : pat.getD len 0 = pat.getD i 0) :
    Border pat (i + 1) (len + 1) := by
  refine ⟨by omega, fun t ht => ?_⟩
  rcases Nat.lt_or_ge t len with h | h
  · have := hB.2 t h
    have harith : i + 1 - (len + 1) + t = i - len + t := by omega
    rw [harith]
    exact this
  · have ht' : t = len := by omega
    have harith : i + 1 - (len + 1) + t = i := by omega
    rw [harith, ht']
    exact hc

/-- Un-extending a border: a nonzero border of the (i+1)-prefix yields a
border of the i-prefix plus a matching character. -/
theorem Border_unextend (pat : List Nat) (i b : Nat) (hbi : b + 1 ≤ i + 1)
    (hB : Border pat (i + 1) (b + 1)) :
    Border pat i b ∧ pat.getD b 0 = pat.getD i 0 := by
  obtain ⟨hb, hp⟩ := hB
  constructor
  · refine ⟨by omega, fun t ht => ?_⟩
    have := hp t (by omega)
    have harith : i + 1 - (b + 1) + t = i - b + t := by omega
    rw [harith] at this
    exact this
  · have := hp b (by omega)
    have harith : i + 1 - (b + 1) + b = i := by omega
    rw [harith] at this
    exact this

/-- A border of a border is a border. -/
theorem Border_trans (pat : List Nat) (i len len' : Nat)
    (h1 : Border pat i len) (h2 : Border pat len len') : Border pat i len' := by
  obtain ⟨hl1, hp1⟩ := h1
  obtain ⟨hl2, hp2⟩ := h2
  refine ⟨by omega, fun t ht => ?_⟩
  have e1 := hp2 t ht
  have e2 := hp1 (len - len' + t) (by omega)
  have harith : i - len + (len - len' + t) = i - len' + t := by omega
  rw [harith] at e2
  rw [e1] at *
  exact e2

/-- Of two borders of the same prefix, the smaller is a border of the
larger. -/
theorem Border_of_le (pat : List Nat) (i b len : Nat)
    (hb : Border pat i b) (hlen : Border pat i len) (hle : b ≤ len) :
    Border pat len b := by
  obtain ⟨hb1, hb2⟩ := hb
  obtain ⟨hl1, hl2⟩ := hlen
  refine ⟨hle, fun t ht => ?_⟩
  have e1 := hb2 t ht
  have e2 := hl2 (len - b + t) (by omega)
  have harith : i - len + (len - b + t) = i - b + t := by omega
  rw [harith] at e2
  rw [e1, ← e2]

/-- Correctness of the lps while-loop: from a state satisfying the loop
invariants with enough fuel, the loop computes the longest-proper-border
table. -/
theorem kmp_lps_loop_spec (pat : List Nat) :
    ∀ fuel i len lps,
      pat.length ≤ lps.length →
      1 ≤ i → i ≤ pat.length → len < i →
      (∀ k, k < i → Border pat (k + 1) (lps.getD k 0) ∧ lps.getD k 0 ≤ k ∧
        ∀ b, b ≤ k → Border pat (k + 1) b → b ≤ lps.getD k 0) →
      Border pat i len →
      (∀ b, b < i → len < b → Border pat i b → pat.getD b 0 ≠ pat.getD i 0) →
      2 * (pat.length - i) + len + 1 ≤ fuel →
      LpsOk pat (kmp_lps_loop fuel pat lps i len) := by
  intro fuel
  induction fuel with
  | zero =>
    intro i len lps _ _ _ _ _ _ _ hfuel
    omega
  | succ fuel ih =>
    intro i len lps hlen h1 h2 h3 hV1 hV2 hV3 hfuel
    by_cases him : i < pat.length
    · by_cases hc : pat.getD i 0 = pat.getD len 0
      · -- matching characters: extend the border, record it, advance
        have hstep : kmp_lps_loop (fuel + 1) pat lps i len =
            kmp_lps_loop fuel pat (lps.set i (len + 1)) (i + 1) (len + 1) := by
          simp only [kmp_lps_loop]
          rw [if_pos him, if_pos hc]
        rw [hstep]
        have hmax : ∀ b, b ≤ i → Border pat (i + 1) b → b ≤ len + 1 := by
          intro b hbi hB
          match b with
          | 0 => omega
          | b' + 1 =>
            obtain ⟨hB', hcb⟩ := Border_unextend pat i b' (by omega) hB
            by_cases hbl : b' > len
            · exact absurd hcb (hV3 b' (by omega) hbl hB')
            · omega
        have hBnew : Border pat (i + 1) (len + 1) :=
          Border_extend pat i len (by omega) hV2 hc.symm
        apply ih (i + 1) (len + 1) (lps.set i (len + 1))
          (by rw [List.length_set]; exact hlen) (by omega) (by omega) (by omega)
        · intro k hk
          rcases Nat.lt_or_ge k i with hki | hki
          · have := hV1 k hki
            rw [getD_set_ne _ _ _ _ (by omega)]
            exact this
          · have hki' : i = k := by omega
            subst hki'
            rw [getD_set_self _ _ _ (by omega)]
            exact ⟨hBnew, by omega, fun b hb hB => hmax b (by omega) hB⟩
        · exact hBnew
        · intro b hb hbl hB
          have := hmax b (by omega) hB
          omega
        · omega
      · by_cases hl0 : len = 0
        · -- mismatch at the bottom of the border chain: record 0, advance
          subst hl0
          have hstep : kmp_lps_loop (fuel + 1) pat lps i 0 =
              kmp_lps_loop fuel pat (lps.set i 0) (i + 1) 0 := by
            simp only [kmp_lps_loop]
            rw [if_pos him, if_neg hc, if_neg (by decide : ¬ (0 : Nat) ≠ 0)]
          rw [hstep]
          have hmax : ∀ b, b ≤ i → Border pat (i + 1) b → b ≤ 0 := by
            intro b hbi hB
            match b with
            | 0 => omega
            | b' + 1 =>
              obtain ⟨hB', hcb⟩ := Border_unextend pat i b' (by omega) hB
              by_cases hbl : b' > 0
              · exact absurd hcb (hV3 b' (by omega) hbl hB')
              · have hb0 : b' = 0 := by omega
                rw [hb0] at hcb
                exact absurd hcb.symm hc
          apply ih (i + 1) 0 (lps.set i 0)
            (by rw [List.length_set]; exact hlen) (by omega) (by omega) (by omega)
          · intro k hk
            rcases Nat.lt_or_ge k i with hki | hki
            · have := hV1 k hki
              rw [getD_set_ne _ _ _ _ (by omega)]
              exact this
            · have hki' : i = k := by omega
              subst hki'
              rw [getD_set_self _ _ _ (by omega)]
              exact ⟨Border_zero pat (i + 1), by omega,
                fun b hb hB => hmax b (by omega) hB⟩
          · exact Border_zero pat (i + 1)
          · intro b hb hbl hB
            have := hmax b (by omega) hB
            omega
          · omega
        · -- mismatch: fall back through the border chain
          have hstep : kmp_lps_loop (fuel + 1) pat lps i len =
              kmp_lps_loop fuel pat lps i (lps.getD (len - 1) 0) := by
            simp only [kmp_lps_loop]
            rw [if_pos him, if_neg hc, if_pos hl0]
          rw [hstep]
          have hk := hV1 (len - 1) (by omega)
          have hk1 : len - 1 + 1 = len := by omega
          rw [hk1] at hk
          obtain ⟨hkB, hkle, hkmax⟩ := hk
          apply ih i (lps.getD (len - 1) 0) lps hlen h1 h2 (by omega) hV1
          · exact Border_trans pat i len (lps.getD (len - 1) 0) hV2 hkB
          · intro b hb hbl hB
            rcases Nat.lt_or_ge len b with hbl2 | hbl2
            · exact hV3 b hb hbl2 hB
            · rcases Nat.eq_or_lt_of_le hbl2 with hbe | hblt
              · subst hbe
                exact fun hcc => hc hcc.symm
              · have hbB : Border pat len b := Border_of_le pat i b len hB hV2 (by omega)
                have := hkmax b (by omega) hbB
                omega
          · omega
    · -- i = pat.length: the loop ends, the invariant is the specification
      have hieq : i = pat.length := by omega
      have hstep : kmp_lps_loop (fuel + 1) pat lps i len = lps := by
        simp only [kmp_lps_loop]
        rw [if_neg him]
      rw [hstep]
      exact ⟨hlen, fun k hk => hV1 k (by omega)⟩

theorem occList_succ_match (sdata pat : List Nat) (n t : Nat)
    (h : matchAt sdata pat n t) :
    occList sdata pat n (t + 1) = occList sdata pat n t ++ [t] := by
  unfold occList
  rw [List.range_succ, List.filter_append]
  simp [h]

theorem occList_succ_nomatch (sdata pat : List Nat) (n t : Nat)
    (h : ¬ matchAt sdata pat n t) :
    occList sdata pat n (t + 1) = occList sdata pat n t := by
  unfold occList
  rw [List.range_succ, List.filter_append]
  simp [h]

theorem occList_stable (sdata pat : List Nat) (n : Nat) :
    ∀ d t, (∀ u, t ≤ u → u < t + d → ¬ matchAt sdata pat n u) →
      occList sdata pat n (t + d) = occList sdata pat n t := by
  intro d
  induction d with
  | zero => intro t _; rfl
  | succ d ihd =>
    intro t h
    have he : t + (d + 1) = (t + d) + 1 := by omega
    rw [he, occList_succ_nomatch _ _ _ _ (h _ (by omega) (by omega))]
    exact ihd t (fun u h1 h2 => h u h1 (by omega))

theorem occList_length_le (sdata pat : List Nat) (n t : Nat) :
    (occList sdata pat n t).length ≤ t := by
  unfold occList
  calc (List.filter _ (List.range t)).length ≤ (List.range t).length :=
        List.length_filter_le _ _
    _ = t := List.length_range t

theorem find_measure_advance (n i m j j' fuel : Nat) (hin : i < n) (hj' : j' ≤ m)
    (h : (n - i) * (m + 1) + j + 1 ≤ fuel) :
    (n - (i + 1)) * (m + 1) + j' + 1 ≤ fuel - 1 := by
  have hsplit : (n - i) * (m + 1) = (n - (i + 1)) * (m + 1) + (m + 1) := by
    have he : n - i = (n - (i + 1)) + 1 := by omega
    rw [he, Nat.succ_mul]
  omega

theorem find_measure_descend (n i m j j' fuel : Nat) (hj' : j' < j)
    (h : (n - i) * (m + 1) + j + 1 ≤ fuel) :
    (n - i) * (m + 1) + j' + 1 ≤ fuel - 1 := by
  omega

/-- Cutting a partial match along a border of the matched prefix: if the L
bytes ending at e match the length-L prefix of pat and b is a border of that
prefix, then the b bytes ending at e match the length-b prefix. -/
theorem partial_cut (sdata pat : List Nat) (e L b : Nat) (hLe : L ≤ e)
    (hpart : ∀ u, u < L → sdata.getD (e - L + u) 0 = pat.getD u 0)
    (hB : Border pat L b) :
    ∀ t, t < b → sdata.getD (e - b + t) 0 = pat.getD t 0 := by
  intro t ht
  obtain ⟨hbL, hp⟩ := hB
  have e1 := hp t ht
  have e2 := hpart (L - b + t) (by omega)
  have harith : e - L + (L - b + t) = e - b + t := by omega
  rw [harith] at e2
  rw [e2]
  exact e1.symm

/-- A full pattern match starting inside a partially matched window induces a
border of the matched prefix. -/
theorem match_border (sdata pat : List Nat) (e L u : Nat)
    (hLe : L ≤ e)
    (hpart : ∀ t, t < L → sdata.getD (e - L + t) 0 = pat.getD t 0)
    (hmatch : ∀ t, t < pat.length → sdata.getD (u + t) 0 = pat.getD t 0)
    (hLm : L ≤ pat.length)
    (hu1 : e - L ≤ u) (hu2 : u ≤ e) :
    Border pat L (e - u) := by
  refine ⟨by omega, fun t ht => ?_⟩
  have hm := hmatch t (by omega)
  have hp := hpart (u - (e - L) + t) (by omega)
  have harith1 : e - L + (u - (e - L) + t) = u + t := by omega
  have harith2 : u - (e - L) + t = L - (e - u) + t := by omega
  rw [harith1, harith2] at hp
  rw [← hm]
  exact hp

theorem vec_resize_count (v : Vec) (c : Nat) : (vec_resize v c).count = c := by
  unfold vec_resize
  split
  · rfl
  · rfl

/-- The computed lps table satisfies its specification. -/
theorem kmp_compute_lps_ok (pat : List Nat) (h : pat ≠ [])
    (hplen : pat.length ≤ VEC_INIT_CAPACITY) :
    LpsOk pat (kmp_compute_lps pat) := by
  have hm : 1 ≤ pat.length := by
    cases pat with
    | nil => exact absurd rfl h
    | cons a l => simp
  unfold kmp_compute_lps
  apply kmp_lps_loop_spec pat (2 * pat.length + 1) 1 0
    ((List.replicate VEC_INIT_CAPACITY 0).set 0 0)
    (by rw [List.length_set, List.length_replicate]; exact hplen) (le_refl _) hm (by omega)
  · intro k hk
    have hk0 : k = 0 := by omega
    subst hk0
    have : ((List.replicate VEC_INIT_CAPACITY 0).set 0 0).getD 0 0 = 0 := by
      rw [getD_set_self]
      rw [List.length_replicate]
      decide
    rw [this]
    exact ⟨Border_zero pat 1, le_refl _, fun b hb _ => hb⟩
  · exact Border_zero pat 1
  · intro b hb hbl _
    omega
  · omega

/-- The scan loop of str_find computes exactly the set of match offsets: from
a state satisfying the KMP loop invariants (j bytes ending at i match the
length-j prefix of the pattern; the accumulator holds exactly the matches
starting before i - j) with enough fuel, the loop ends with the accumulator
holding all match offsets below the last possible start n + 1 - m. -/
theorem str_find_loop_spec (sdata pat lps : List Nat) (n : Nat)
    (hm : 0 < pat.length) (hlps : LpsOk pat lps) (hnW : n + 2 < W) :
    ∀ fuel i j acc,
      j < pat.length → j ≤ i → i ≤ n →
      (∀ t, t < j → sdata.getD (i - j + t) 0 = pat.getD t 0) →
      content acc = occList sdata pat n (i - j) →
      StrWF acc →
      (n - i) * (pat.length + 1) + j + 1 ≤ fuel →
      content (str_find_loop fuel sdata n pat lps i j acc) =
        occList sdata pat n (n + 1 - pat.length) := by
  obtain ⟨hlpslen, hlpsok⟩ := hlps
  intro fuel
  induction fuel with
  | zero =>
    intro i j acc _ _ _ _ _ _ hfuel
    omega
  | succ fuel ihf =>
    intro i j acc hjm hji hin hSI1 hSI2 hWFa hfuel
    by_cases hiend : i < n
    · by_cases hhit : sdata.getD i 0 = pat.getD j 0
      · -- matching byte: the partial match extends to j + 1 bytes ending at i + 1
        have hfull : ∀ t, t < j + 1 → sdata.getD (i + 1 - (j + 1) + t) 0 = pat.getD t 0 := by
          intro t ht
          have harith : i + 1 - (j + 1) + t = i - j + t := by omega
          rw [harith]
          rcases Nat.lt_or_ge t j with h | h
          · exact hSI1 t h
          · have ht' : t = j := by omega
            have harith2 : i - j + t = i := by omega
            rw [harith2, ht']
            exact hhit
        by_cases hjm1 : j + 1 = pat.length
        · -- full match: record offset i - j, fall back to lps[j]
          have hmatch0 : matchAt sdata pat n (i - j) := by
            refine ⟨by omega, fun t ht => ?_⟩
            have := hfull t (by omega)
            have harith : i + 1 - (j + 1) + t = i - j + t := by omega
            rwa [harith] at this
          have hlen_acc : (content acc).length = acc.count := by
            unfold content
            rw [List.length_take, hWFa.1]
            have := hWFa.2.1
            omega
          have hcnt_le : acc.count ≤ i - j := by
            rw [hSI2] at hlen_acc
            have := occList_length_le sdata pat n (i - j)
            omega
          have haccW : acc.count + 1 < W := by omega
          have hcap_pos : 0 < acc.capacity := by
            have h := hWFa.2.2
            unfold VEC_INIT_CAPACITY at h
            omega
          have hext_cnt : (vec_extend acc 1).count = acc.count + 1 := by
            unfold vec_extend
            rw [vec_resize_count, add64_eq _ _ haccW]
          have hsub1 : sub64 (vec_extend acc 1).count 1 = acc.count := by
            rw [hext_cnt, sub64_eq _ _ (by omega) haccW]
            omega
          have hsub2 : sub64 (i + 1) (j + 1) = i - j := by
            rw [sub64_eq _ _ (by omega) (by omega)]
            omega
          have hstep : str_find_loop (fuel + 1) sdata n pat lps i j acc =
              str_find_loop fuel sdata n pat lps (i + 1) (lps.getD j 0)
                (vec_set (vec_extend acc 1) (sub64 (vec_extend acc 1).count 1)
                  (sub64 (i + 1) (j + 1))) := by
            simp only [str_find_loop]
            rw [if_pos hiend]
            simp only [if_pos hhit]
            rw [if_pos hjm1, Nat.add_sub_cancel]
          rw [hstep, hsub1, hsub2]
          obtain ⟨hBj, hlej, hmaxj⟩ := hlpsok j (by omega)
          have P := vec_push_spec acc (i - j) hWFa.1 hWFa.2.1 hcap_pos haccW
          apply ihf (i + 1) (lps.getD j 0) (vec_set (vec_extend acc 1) acc.count (i - j))
            (by omega) (by omega) (by omega)
          · exact partial_cut sdata pat (i + 1) (j + 1) (lps.getD j 0) (by omega) hfull hBj
          · rw [P.2.2.2.2, hSI2, ← occList_succ_match sdata pat n (i - j) hmatch0]
            have hband : ∀ u, i - j + 1 ≤ u →
                u < (i - j + 1) + ((i + 1 - lps.getD j 0) - (i - j + 1)) →
                ¬ matchAt sdata pat n u := by
              intro u hu1 hu2 hmm'
              have hB' := match_border sdata pat (i + 1) (j + 1) u (by omega) hfull
                hmm'.2 (by omega) (by omega) (by omega)
              have := hmaxj (i + 1 - u) (by omega) hB'
              omega
            have hd : (i - j + 1) + ((i + 1 - lps.getD j 0) - (i - j + 1)) =
                i + 1 - lps.getD j 0 := by omega
            rw [← hd]
            exact (occList_stable sdata pat n _ _ hband).symm
          · exact ⟨P.2.1, P.2.2.2.1, le_trans hWFa.2.2 P.2.2.1⟩
          · have := find_measure_advance n i pat.length j (lps.getD j 0) (fuel + 1)
              hiend (by omega) hfuel
            omega
        · by_cases hmm : i + 1 < n ∧ ¬ sdata.getD (i + 1) 0 = pat.getD (j + 1) 0
          · -- next byte mismatches: fall back to lps[j] before advancing
            have hstep : str_find_loop (fuel + 1) sdata n pat lps i j acc =
                str_find_loop fuel sdata n pat lps (i + 1) (lps.getD j 0) acc := by
              simp only [str_find_loop]
              rw [if_pos hiend]
              simp only [if_pos hhit]
              rw [if_neg hjm1, if_pos hmm, if_pos (by omega : j + 1 ≠ 0),
                Nat.add_sub_cancel]
            rw [hstep]
            obtain ⟨hBj, hlej, hmaxj⟩ := hlpsok j (by omega)
            apply ihf (i + 1) (lps.getD j 0) acc (by omega) (by omega) (by omega)
            · exact partial_cut sdata pat (i + 1) (j + 1) (lps.getD j 0) (by omega) hfull hBj
            · rw [hSI2]
              have hband : ∀ u, i - j ≤ u →
                  u < (i - j) + ((i + 1 - lps.getD j 0) - (i - j)) →
                  ¬ matchAt sdata pat n u := by
                intro u hu1 hu2 hmm'
                rcases Nat.eq_or_lt_of_le hu1 with he | hlt
                · have hc := hmm'.2 (j + 1) (by omega)
                  have harith : u + (j + 1) = i + 1 := by omega
                  rw [harith] at hc
                  exact hmm.2 hc
                · have hB' := match_border sdata pat (i + 1) (j + 1) u (by omega) hfull
                    hmm'.2 (by omega) (by omega) (by omega)
                  have := hmaxj (i + 1 - u) (by omega) hB'
                  omega
              have hd : (i - j) + ((i + 1 - lps.getD j 0) - (i - j)) =
                  i + 1 - lps.getD j 0 := by omega
              rw [← hd]
              exact (occList_stable sdata pat n _ _ hband).symm
            · exact hWFa
            · have := find_measure_advance n i pat.length j (lps.getD j 0) (fuel + 1)
                hiend (by omega) hfuel
              omega
          · -- next byte still matches (or the text ends): just advance
            have hstep : str_find_loop (fuel + 1) sdata n pat lps i j acc =
                str_find_loop fuel sdata n pat lps (i + 1) (j + 1) acc := by
              simp only [str_find_loop]
              rw [if_pos hiend]
              simp only [if_pos hhit]
              rw [if_neg hjm1, if_neg hmm]
            rw [hstep]
            apply ihf (i + 1) (j + 1) acc (by omega) (by omega) (by omega)
            · exact hfull
            · have harith : i + 1 - (j + 1) = i - j := by omega
              rw [harith]
              exact hSI2
            · exact hWFa
            · have := find_measure_advance n i pat.length j (j + 1) (fuel + 1)
                hiend (by omega) hfuel
              omega
      · by_cases hj0 : j = 0
        · -- mismatch with no partial match: advance the text pointer
          have hstep : str_find_loop (fuel + 1) sdata n pat lps i j acc =
              str_find_loop fuel sdata n pat lps (i + 1) j acc := by
            simp only [str_find_loop]
            rw [if_pos hiend]
            simp only [if_neg hhit]
            rw [if_neg (by omega : ¬ j = pat.length), if_pos ⟨hiend, hhit⟩,
              if_neg (show ¬ j ≠ 0 from fun h => h hj0)]
          rw [hstep]
          apply ihf (i + 1) j acc (by omega) (by omega) (by omega)
          · intro t ht
            exact absurd ht (by omega)
          · have hnm : ¬ matchAt sdata pat n (i - j) := by
              intro hmm'
              have hc := hmm'.2 0 (by omega)
              have harith : i - j + 0 = i := by omega
              rw [harith] at hc
              apply hhit
              rw [hj0]
              exact hc
            have harith : i + 1 - j = (i - j) + 1 := by omega
            rw [harith, occList_succ_nomatch sdata pat n (i - j) hnm]
            exact hSI2
          · exact hWFa
          · have := find_measure_advance n i pat.length j j (fuel + 1)
              hiend (by omega) hfuel
            omega
        · -- mismatch inside a partial match: fall back to lps[j - 1]
          have hstep : str_find_loop (fuel + 1) sdata n pat lps i j acc =
              str_find_loop fuel sdata n pat lps i (lps.getD (j - 1) 0) acc := by
            simp only [str_find_loop]
            rw [if_pos hiend]
            simp only [if_neg hhit]
            rw [if_neg (by omega : ¬ j = pat.length), if_pos ⟨hiend, hhit⟩, if_pos hj0]
          rw [hstep]
          obtain ⟨hBj, hlej, hmaxj⟩ := hlpsok (j - 1) (by omega)
          have hj1 : j - 1 + 1 = j := by omega
          rw [hj1] at hBj hmaxj
          apply ihf i (lps.getD (j - 1) 0) acc (by omega) (by omega) hin
          · exact partial_cut sdata pat i j (lps.getD (j - 1) 0) hji hSI1 hBj
          · rw [hSI2]
            have hband : ∀ u, i - j ≤ u →
                u < (i - j) + ((i - lps.getD (j - 1) 0) - (i - j)) →
                ¬ matchAt sdata pat n u := by
              intro u hu1 hu2 hmm'
              rcases Nat.eq_or_lt_of_le hu1 with he | hlt
              · have hc := hmm'.2 j (by omega)
                have harith : u + j = i := by omega
                rw [harith] at hc
                exact hhit hc
              · have hB' := match_border sdata pat i j u hji hSI1
                  hmm'.2 (by omega) (by omega) (by omega)
                have := hmaxj (i - u) (by omega) hB'
                omega
            have hd : (i - j) + ((i - lps.getD (j - 1) 0) - (i - j)) =
                i - lps.getD (j - 1) 0 := by omega
            rw [← hd]
            exact (occList_stable sdata pat n _ _ hband).symm
          · exact hWFa
          · have := find_measure_descend n i pat.length j (lps.getD (j - 1) 0) (fuel + 1)
              (by omega) hfuel
            omega
    · -- i = n: the loop ends; no match can start at or after n + 1 - m
      have hstep : str_find_loop (fuel + 1) sdata n pat lps i j acc = acc := by
        simp only [str_find_loop]
        rw [if_neg hiend]
      rw [hstep, hSI2]
      have hd : (n + 1 - pat.length) + ((i - j) - (n + 1 - pat.length)) = i - j := by
        omega
      rw [← hd]
      apply occList_stable
      intro u hu1 hu2 hmm'
      have := hmm'.1
      omega

theorem list_eq_of_getD (l1 : List Nat) :
    ∀ l2 : List Nat, l1.length = l2.length →
      (∀ t, t < l1.length → l1.getD t 0 = l2.getD t 0) → l1 = l2 := by
  induction l1 with
  | nil =>
    intro l2 hlen _
    cases l2 with
    | nil => rfl
    | cons b t2 => simp at hlen
  | cons a t ih =>
    intro l2 hlen h
    cases l2 with
    | nil => simp at hlen
    | cons b t2 =>
      have h0 := h 0 (by simp)
      rw [List.getD_cons_zero, List.getD_cons_zero] at h0
      have ht : t = t2 := by
        apply ih t2 (by simpa using hlen)
        intro k hk
        have hk' := h (k + 1) (by simp; omega)
        rwa [List.getD_cons_succ, List.getD_cons_succ] at hk'
      rw [h0, ht]

theorem getD_take (l : List Nat) :
    ∀ n t : Nat, t < n → (l.take n).getD t 0 = l.getD t 0 := by
  induction l with
  | nil =>
    intro n t _
    rw [List.take_nil]
  | cons a l ih =>
    intro n t hlt
    cases n with
    | zero => omega
    | succ n =>
      cases t with
      | zero => rw [List.take_succ_cons, List.getD_cons_zero, List.getD_cons_zero]
      | succ t =>
        rw [List.take_succ_cons, List.getD_cons_succ, List.getD_cons_succ]
        exact ih n t (by omega)

theorem getD_drop (l : List Nat) :
    ∀ u t : Nat, (l.drop u).getD t 0 = l.getD (u + t) 0 := by
  induction l with
  | nil =>
    intro u t
    rw [List.drop_nil, List.getD_nil, List.getD_nil]
  | cons a l ih =>
    intro u t
    cases u with
    | zero => rw [List.drop_zero, Nat.zero_add]
    | succ u =>
      rw [List.drop_succ_cons, ih u t]
      have harith : u + 1 + t = (u + t) + 1 := by omega
      rw [harith, List.getD_cons_succ]

/-- The pointwise match predicate of the loop proof coincides with the spec's
occurrence predicate on the logical content. -/
theorem occursAt_iff_matchAt (sdata pat : List Nat) (n u : Nat)
    (hn : n ≤ sdata.length) (hm : 0 < pat.length) :
    occursAt (sdata.take n) pat u ↔ matchAt sdata pat n u := by
  unfold occursAt matchAt
  constructor
  · intro h
    have hlen := congrArg List.length h
    simp only [List.length_take, List.length_drop] at hlen
    have hbound : u + pat.length ≤ n := by omega
    refine ⟨hbound, fun t ht => ?_⟩
    have hpt := congrArg (fun l : List Nat => l.getD t 0) h
    simp only at hpt
    rw [getD_take _ _ _ ht, getD_drop, getD_take _ _ _ (by omega : u + t < n)] at hpt
    exact hpt
  · rintro ⟨hbound, hpt⟩
    apply list_eq_of_getD
    · simp only [List.length_take, List.length_drop]
      omega
    · intro t htl
      simp only [List.length_take, List.length_drop] at htl
      have ht : t < pat.length := by omega
      rw [getD_take _ _ _ ht, getD_drop, getD_take _ _ _ (by omega : u + t < n)]
      exact hpt t ht

/-- At the loop's final threshold the collected match offsets are exactly the
reference result of the naive search over the logical content. -/
theorem occList_eq_naive_find (sdata pat : List Nat) (n : Nat)
    (hn : n ≤ sdata.length) (hm : 0 < pat.length) :
    occList sdata pat n (n + 1 - pat.length) = naive_find (sdata.take n) pat := by
  unfold occList naive_find
  have hlen : (sdata.take n).length = n := by
    rw [List.length_take]
    omega
  rw [hlen]
  apply List.filter_congr
  intro u _
  rw [decide_eq_decide]
  exact (occursAt_iff_matchAt sdata pat n u hn hm).symm

/-- C3 counterexample against the unrestricted claim: the lps table is
allocated by vec_new_len with a fixed 128-slot buffer, so for a pattern
longer than 128 bytes the table accesses at indices >= 128 run past the
allocation (heap overflow); under the file's out-of-bounds convention the
recorded fallback lengths beyond slot 127 read back as 0 and overlapping
occurrences are missed.  Concretely, on the well-formed 130-byte string
"A"*130 (capacity 256) the pattern "A"*129 occurs at offsets 0 and 1, but
str_find returns only [0]: after the full match at 0 the fallback reads
lps[128] from past the 128-slot buffer, restarting the scan from scratch. -/
theorem C3_find_lps_overflow_counterexample :
    (str_find ⟨1, 256, 130, List.replicate 130 65 ++ List.replicate 126 0⟩
        (List.replicate 129 65)).map content = some [0] ∧
      naive_find (content ⟨1, 256, 130, List.replicate 130 65 ++ List.replicate 126 0⟩)
        (List.replicate 129 65) = [0, 1] ∧
      StrWF ⟨1, 256, 130, List.replicate 130 65 ++ List.replicate 126 0⟩ := by
  refine ⟨by decide, by decide, ?_⟩
  unfold StrWF
  refine ⟨by decide, by decide, by decide⟩

/-- C3 amended: for every well-formed string s and every non-empty pattern p
of at most VEC_INIT_CAPACITY = 128 bytes (the fixed allocation of the lps
table vector; longer patterns overflow it, see the counterexample) with the
string length inside the size_t range, find(s, p) succeeds and returns
exactly the starting offsets at which p occurs in s, in ascending order,
overlapping occurrences included. -/
theorem C3_find_kmp_correct (s : Vec) (pat : List Nat)
    (hWF : StrWF s) (hpat : pat ≠ []) (hplen : pat.length ≤ VEC_INIT_CAPACITY)
    (hnW : s.count + 2 < W) :
    ∃ r, str_find s pat = some r ∧ content r = naive_find (content s) pat := by
  have hm : 0 < pat.length := by
    cases pat with
    | nil => exact absurd rfl hpat
    | cons a l => simp
  have hmne : ¬ pat.length = 0 := by omega
  have hfind : str_find s pat =
      some (str_find_loop ((s.count + 1) * (pat.length + 1)) s.data s.count pat
        (kmp_compute_lps pat) 0 0 (vec_new 8)) := by
    simp only [str_find, str_length]
    rw [if_neg hmne]
  refine ⟨_, hfind, ?_⟩
  have hWF8 : StrWF (vec_new 8) := by
    unfold StrWF
    refine ⟨by decide, by decide, by decide⟩
  have hSI20 : content (vec_new 8) = occList s.data pat s.count 0 := rfl
  have hloop := str_find_loop_spec s.data pat (kmp_compute_lps pat) s.count hm
    (kmp_compute_lps_ok pat hpat hplen) hnW ((s.count + 1) * (pat.length + 1)) 0 0 (vec_new 8)
    hm (Nat.le_refl 0) (Nat.zero_le _)
    (fun t ht => absurd ht (by omega))
    hSI20 hWF8
    (by
      simp only [Nat.sub_zero, Nat.add_zero]
      have hsplit : (s.count + 1) * (pat.length + 1) =
          s.count * (pat.length + 1) + (pat.length + 1) := Nat.succ_mul _ _
      omega)
  rw [hloop]
  have hn : s.count ≤ s.data.length := by
    have h1 := hWF.1
    have h2 := hWF.2.1
    omega
  rw [occList_eq_naive_find s.data pat s.count hn hm]
  rfl

/-- Witness: find("ABABACCABA", "ABA") succeeds and returns [0, 2, 7], the
overlapping-match example of the spec and the test suite. -/
theorem C3_find_kmp_correct_witness :
    ∃ r, str_find (str_new [65, 66, 65, 66, 65, 67, 67, 65, 66, 65]) [65, 66, 65] =
        some r ∧ content r = [0, 2, 7] := by
  obtain ⟨r, h1, h2⟩ :=
    C3_find_kmp_correct (str_new [65, 66, 65, 66, 65, 67, 67, 65, 66, 65]) [65, 66, 65]
      (by unfold StrWF; refine ⟨by decide, by decide, by decide⟩)
      (by decide) (by decide) (by decide)
  refine ⟨r, h1, ?_⟩
  rw [h2]
  decide

end LibVest
